import Mathlib

/-!
The number server of tgracchus/numbers.

A shallow embedding of `numbers.go`:

* `DefaultTCPController` (lines 72-112), the per-connection protocol reader,
* `NumberStore` (lines 117-152), the deduplicating stage,
* `FileWriter` (lines 184-219), the log writer,

together with the two standard-library routines their behaviour depends on,
`strconv.Atoi` and the `%09d` verb of `fmt.Fprintf`.

Go strings are byte sequences: a string is a `List Nat` of byte values.
Channels are modelled by the sequence of values sent on them.
-/

namespace Numbers

/-! ## Bytes and strings -/

/-- The bytes of an ASCII string literal. -/
def ascii (s : String) : List Nat := s.toList.map Char.toNat

/-- The byte `'\n'`. -/
def newline : Nat := 10

/-- The literal `"terminate"` of line 91. -/
def terminateToken : List Nat := [116, 101, 114, 109, 105, 110, 97, 116, 101]

/-- `strings.TrimSuffix(data, "\n")`: drops one trailing newline when there is one. -/
def TrimSuffix (data : List Nat) : List Nat :=
  if data.getLast? = some newline then data.dropLast else data

/-! ## strconv.Atoi -/

/-- The two errors of `strconv`: `ErrSyntax` and `ErrRange`. -/
inductive NumError where
  | malformed
  | outOfRange
  deriving DecidableEq, Repr

/-- The digit loop of the fast path of `strconv.Atoi`:
`for _, ch := range []byte(s) { ch -= '0'; if ch > 9 { return 0, syntaxError }; n = n*10 + int(ch) }`.
The subtraction is on a byte and wraps around. -/
def atoiDigits : List Nat → Nat → Except NumError Nat
  | [], n => .ok n
  | ch :: s, n =>
    let d := (ch + 256 - 48) % 256
    if d > 9 then .error .malformed else atoiDigits s (n * 10 + d)

/-- The digit loop of `strconv.ParseUint(s, 10, 64)`, which the slow path of
`Atoi` reaches: a non-digit is a syntax error, a value beyond `2^64 - 1` a
range error, whichever the scan meets first. -/
def parseUintDigits : List Nat → Nat → Except NumError Nat
  | [], n => .ok n
  | ch :: s, n =>
    if 48 ≤ ch ∧ ch ≤ 57 then
      if n ≥ (2 ^ 64 - 1) / 10 + 1 then .error .outOfRange
      else if n * 10 + (ch - 48) > 2 ^ 64 - 1 then .error .outOfRange
      else parseUintDigits s (n * 10 + (ch - 48))
    else .error .malformed

/-- `strconv.Atoi` on a 64-bit platform. Strings of 1 to 18 bytes take the
fast path: an optional sign `+` or `-`, then digits only. Every other string
goes through `ParseInt(s, 10, 0)`. -/
def Atoi (s : List Nat) : Except NumError Int :=
  if 0 < s.length ∧ s.length < 19 then
    let body := if s.head? = some 45 ∨ s.head? = some 43 then s.tail else s
    if body.length < 1 then .error .malformed
    else
      match atoiDigits body 0 with
      | .error e => .error e
      | .ok n => if s.head? = some 45 then .ok (-(n : Int)) else .ok (n : Int)
  else
    if s = [] then .error .malformed
    else
      let neg := s.head? = some 45
      let body := if s.head? = some 45 ∨ s.head? = some 43 then s.tail else s
      if body = [] then .error .malformed
      else
        match parseUintDigits body 0 with
        | .error .malformed => .error .malformed
        | .error .outOfRange => .error .outOfRange
        | .ok un =>
          if ¬ neg ∧ un ≥ 2 ^ 63 then .error .outOfRange
          else if neg ∧ un > 2 ^ 63 then .error .outOfRange
          else if neg then .ok (-(un : Int)) else .ok (un : Int)

/-! ## DefaultTCPController -/

/-- What `reader.ReadString` reports when the stream has no further newline. -/
inductive ReadError where
  | EOF
  | failed
  deriving DecidableEq, Repr

/-- The return value of `DefaultTCPController`, a Go `error`. The four wrapped
errors carry the label given to `errors.Wrap`. -/
inductive Outcome where
  | nil
  | terminated
  | SetReadDeadline
  | ReadString
  | checkFor9Digits (data : List Nat)
  | strconvAtoi (err : NumError)
  deriving DecidableEq, Repr

/-- Modelled from the spec: the sentinel error `TERMINATED` that lines 94, 98
and 107 return is declared in a file of the repository that is not among the
sources; the spec calls it the `Terminated` outcome, distinct from every
protocol violation and from the error-free return. -/
def TERMINATED : Outcome := Outcome.terminated

/-- `reader.ReadString(delim)`: the bytes up to and including the first
`delim`, with the bytes that remain unread; when no `delim` is left, all the
bytes and `none` (the call returns an error). -/
def ReadString (delim : Nat) : List Nat → List Nat × Option (List Nat)
  | [] => ([], none)
  | b :: bs =>
    if b = delim then ([b], some bs)
    else ((b :: (ReadString delim bs).1), (ReadString delim bs).2)

/-- The connection and the other goroutines, as the controller meets them.
`input` are the bytes the client sends before the stream ends, `atEnd` the
error the read reports once they are used up. `deadlineFails k` says that
`SetReadDeadline` returns an error in iteration `k` of the loop.
`raisedElsewhere k` says that another goroutine has closed `terminate` by the
time iteration `k` polls it with a `select` (lines 92 and 105). -/
structure Conn where
  input : List Nat
  atEnd : ReadError
  deadlineFails : Nat → Bool
  raisedElsewhere : Nat → Bool

/-- The observable result of one run of the controller: the integers sent on
`numbers`, in order; the returned error; whether `terminate` is closed when
the controller returns, as far as the controller can tell (closed at entry,
found closed at a poll, or closed by the controller itself); and, as a trace,
the payloads of the lines read. -/
structure Run where
  pushed : List Int
  outcome : Outcome
  terminate : Bool
  reads : List (List Nat)
  deriving DecidableEq, Repr

/-- The `for` loop of `DefaultTCPController` (lines 74-111). `k` counts the
iterations, `input` are the unread bytes, `terminate` says whether the channel
was closed at entry. Every iteration that continues consumes at least one
byte, so `fuel = input.length + 1` is never used up (`loop_fuel`). -/
def DefaultTCPController.loop (c : Conn) :
    Nat → Nat → List Nat → Bool → Run
  | 0, _, _, terminate => ⟨[], .nil, terminate, []⟩
  | fuel + 1, k, input, terminate =>
    if c.deadlineFails k then ⟨[], .SetReadDeadline, terminate, []⟩
    else
      match ReadString newline input with
      | (_, none) =>
        if c.atEnd = .EOF then ⟨[], .nil, terminate, []⟩
        else ⟨[], .ReadString, terminate, []⟩
      | (line, some rest) =>
        let data := TrimSuffix line
        if data.length ≠ 9 then ⟨[], .checkFor9Digits data, terminate, [data]⟩
        else if data = terminateToken then
          -- `case <-terminate`: already closed; `default`: `close(terminate)`
          if terminate || c.raisedElsewhere k then ⟨[], TERMINATED, true, [data]⟩
          else ⟨[], TERMINATED, true, [data]⟩
        else
          match Atoi data with
          | .error e => ⟨[], .strconvAtoi e, terminate, [data]⟩
          | .ok number =>
            if terminate || c.raisedElsewhere k then ⟨[], TERMINATED, true, [data]⟩
            else
              let r := DefaultTCPController.loop c fuel (k + 1) rest terminate
              ⟨number :: r.pushed, r.outcome, r.terminate, data :: r.reads⟩

/-- `DefaultTCPController(ctx, c, numbers, terminate)`, started with the
channel `terminate` closed or not. -/
def DefaultTCPController (c : Conn) (terminate : Bool) : Run :=
  DefaultTCPController.loop c (c.input.length + 1) 0 c.input terminate

/-- A connection on which no deadline call fails and no other goroutine
raises the termination signal. -/
def quietConn (input : List Nat) (atEnd : ReadError) : Conn :=
  ⟨input, atEnd, fun _ => false, fun _ => false⟩

/-! ## The termination branch under concurrency -/

/-- Where a controller that has read `terminate` stands in lines 92-98: about
to run the `select`, about to run `close(terminate)`, returned `TERMINATED`,
or stopped by the run-time panic of closing a closed channel. -/
inductive Pc where
  | atSelect
  | atClose
  | returned
  | panicked
  deriving DecidableEq, Repr

/-- The controllers that have each read a `terminate` line, with the channel
they share: `closed` says whether `terminate` is closed, `closeCalls` counts
the executions of `close(terminate)`. -/
structure Race where
  closed : Bool
  closeCalls : Nat
  pcs : List Pc
  deriving DecidableEq, Repr

/-- One atomic step of controller `i`. The `select` of line 92 returns
`TERMINATED` when the channel is closed and otherwise falls to the `default`
case; `close(terminate)` of line 96 closes an open channel and panics on a
closed one. -/
def Race.step (s : Race) (i : Nat) : Race :=
  match s.pcs.get? i with
  | some .atSelect =>
    if s.closed then { s with pcs := s.pcs.set i .returned }
    else { s with pcs := s.pcs.set i .atClose }
  | some .atClose =>
    if s.closed then
      { s with closeCalls := s.closeCalls + 1, pcs := s.pcs.set i .panicked }
    else
      { closed := true, closeCalls := s.closeCalls + 1, pcs := s.pcs.set i .returned }
  | _ => s

/-- The steps of a schedule, taken in order. -/
def Race.run (s : Race) (schedule : List Nat) : Race :=
  schedule.foldl Race.step s

/-- The state in which `n` controllers have just read `terminate` and the
channel is open. -/
def Race.start (n : Nat) : Race := ⟨false, 0, List.replicate n .atSelect⟩

/-! ## NumberStore -/

/-- What the `select` of a stage receives: a number on its input channel or a
tick of its ticker. The closing of the input channel ends the sequence. -/
inductive Event where
  | number (n : Int)
  | tick
  deriving DecidableEq, Repr

/-- An `int64` after an addition: the value wrapped to 64 bits. -/
def wrap64 (x : Int) : Int := (x + 2 ^ 63) % 2 ^ 64 - 2 ^ 63

/-- The four figures of one report line (lines 144-145). -/
structure Report where
  unique : Int
  duplicates : Int
  uniqueTotal : Int
  total : Int
  deriving DecidableEq, Repr

/-- The state of the goroutine of `NumberStore`: the map `numbers` (its keys),
the three counters, the numbers sent on `out` and the reports logged. -/
structure Store where
  numbers : Finset Int
  total : Int
  currentUnique : Int
  currentDuplicated : Int
  out : List Int
  reports : List Report

/-- One turn of the `select` loop of `NumberStore` (lines 129-148). -/
def NumberStore.step (s : Store) : Event → Store
  | .number number =>
    if number ∈ s.numbers then
      { s with total := wrap64 (s.total + 1),
               currentDuplicated := wrap64 (s.currentDuplicated + 1) }
    else
      { s with total := wrap64 (s.total + 1),
               currentUnique := wrap64 (s.currentUnique + 1),
               numbers := insert number s.numbers,
               out := s.out ++ [number] }
  | .tick =>
    { s with reports := s.reports ++
               [⟨s.currentUnique, s.currentDuplicated, s.numbers.card, s.total⟩],
             currentUnique := 0,
             currentDuplicated := 0 }

/-- The state `NumberStore` starts its goroutine in (lines 118-123). -/
def NumberStore.init : Store := ⟨∅, 0, 0, 0, [], []⟩

/-- `NumberStore` run on the events that arrive until its input is closed. -/
def NumberStore (events : List Event) : Store :=
  events.foldl NumberStore.step NumberStore.init

/-- The integers among the events, in order of arrival. -/
def arrivals : List Event → List Int
  | [] => []
  | .number n :: es => n :: arrivals es
  | .tick :: es => arrivals es

/-! ## FileWriter -/

/-- The decimal digits of `u`, most significant first, as `fmtInteger` of
package `fmt` produces them: `for u >= 10 { buf[i] = '0' + u%10; u /= 10 }`
and then the leading digit. -/
def fmtDecimal : Nat → Nat → List Nat
  | 0, u => [48 + u % 10]
  | fuel + 1, u =>
    if u ≥ 10 then fmtDecimal fuel (u / 10) ++ [48 + u % 10] else [48 + u]

/-- The verb `%09d` applied to an `int`: with the zero flag the width 9 is
the number of digits, one less when a sign is printed; the digits are padded
with zeros on the left and the sign goes in front. An `int` has at most 20
digits. -/
def fmt09d (number : Int) : List Nat :=
  let prec := if number < 0 then 8 else 9
  let digits := fmtDecimal 20 number.natAbs
  let padded := List.replicate (prec - digits.length) 48 ++ digits
  if number < 0 then 45 :: padded else padded

/-- The text of `fmt.Fprintf(b, "%09d\n", number)` (line 199). -/
def Fprintf (number : Int) : List Nat := fmt09d number ++ [newline]

/-- The state of the goroutine of `FileWriter`: the bytes held by the
buffered writer `b`, the bytes in the file, and whether `done` is closed. -/
structure Writer where
  buffer : List Nat
  file : List Nat
  done : Bool
  deriving DecidableEq, Repr

/-- One turn of the `select` loop of `FileWriter` (lines 196-214): a number is
formatted into the buffer, a tick flushes the buffer to the file. -/
def FileWriter.step (w : Writer) : Event → Writer
  | .number number => { w with buffer := w.buffer ++ Fprintf number }
  | .tick => { w with file := w.file ++ w.buffer, buffer := [] }

/-- `FileWriter` run on the events that arrive until its input is closed, when
it flushes and closes `done` (lines 204-208). -/
def FileWriter (events : List Event) : Writer :=
  let w := events.foldl FileWriter.step ⟨[], [], false⟩
  ⟨[], w.file ++ w.buffer, true⟩

/-! ## The pipeline of one connection -/

/-- What one connection leaves behind when its numbers pass through
`NumberStore` and `FileWriter` and no ticker fires in between. -/
structure Pipeline where
  run : Run
  store : Store
  writer : Writer

/-- The chain `DefaultTCPController -> NumberStore -> FileWriter` of
`StartNumberServer` (lines 33-42) for a single connection. -/
def pipeline (c : Conn) (terminate : Bool) : Pipeline :=
  let run := DefaultTCPController c terminate
  let store := NumberStore (run.pushed.map Event.number)
  ⟨run, store, FileWriter (store.out.map Event.number)⟩

/-- The lines of a text: the byte strings that a newline ends. -/
def logLines : List Nat → List (List Nat)
  | [] => []
  | b :: bs =>
    if b = newline then [] :: logLines bs
    else
      match logLines bs with
      | [] => []
      | l :: ls => (b :: l) :: ls

/-- A byte string matching `^[0-9]{9}$`. -/
def isNineDigits (s : List Nat) : Prop :=
  s.length = 9 ∧ ∀ b ∈ s, 48 ≤ b ∧ b ≤ 57

instance (s : List Nat) : Decidable (isNineDigits s) := by
  unfold isNineDigits; infer_instance

/-- The base-10 value of a string of digits. -/
def decimalValue (s : List Nat) : Nat :=
  s.foldl (fun acc b => acc * 10 + (b - 48)) 0

/-- The bytes a client sends for a sequence of payloads: each payload followed
by a newline. -/
def wire : List (List Nat) → List Nat
  | [] => []
  | l :: ls => l ++ newline :: wire ls

/-- The sequence with every repeated occurrence removed: each element is kept
where it occurs first and dropped from what follows. -/
def firstArrivals : List Int → List Int
  | [] => []
  | x :: xs => x :: (firstArrivals xs).filter (fun y => decide (y ≠ x))

/-- The bytes of the client of end-to-end scenario 1, as the scenario writes
them: three numbers and a line made of a blank and `terminate`. -/
def scenario1 : List Nat := ascii "000000001\n000000002\n000000001\n terminate\n"

/-- The counters agree with the `k` integers received so far. -/
def StoreInv (s : Store) (k : Nat) : Prop :=
  s.total = k ∧
  (s.reports.map (fun r => r.unique + r.duplicates)).sum +
    (s.currentUnique + s.currentDuplicated) = k ∧
  (s.reports.map (fun r => r.unique)).sum + s.currentUnique = s.numbers.card ∧
  (s.numbers.card : Int) = s.out.length ∧
  0 ≤ (s.reports.map (fun r => r.unique + r.duplicates)).sum ∧
  0 ≤ s.currentUnique ∧ 0 ≤ s.currentDuplicated

end Numbers

open Numbers

/-! ## Reading and parsing one line -/

theorem ReadString_line (l rest : List Nat) (h : newline ∉ l) :
    ReadString newline (l ++ newline :: rest) = (l ++ [newline], some rest) := by
  induction l with
  | nil => simp [ReadString]
  | cons b bs ih =>
    have hb : b ≠ newline := fun e => h (by simp [e])
    have hbs : newline ∉ bs := fun e => h (by simp [e])
    simp [ReadString, hb, ih hbs]

theorem TrimSuffix_line (l : List Nat) : TrimSuffix (l ++ [newline]) = l := by
  simp [TrimSuffix]

theorem newline_not_mem_of_digits (l : List Nat) (h : ∀ b ∈ l, 48 ≤ b ∧ b ≤ 57) :
    newline ∉ l := by
  intro hmem
  have := h newline hmem
  simp [newline] at this

theorem atoiDigits_digits (l : List Nat) (h : ∀ b ∈ l, 48 ≤ b ∧ b ≤ 57) (n : Nat) :
    atoiDigits l n = .ok (l.foldl (fun acc b => acc * 10 + (b - 48)) n) := by
  induction l generalizing n with
  | nil => simp [atoiDigits]
  | cons b bs ih =>
    have hb := h b (by simp)
    have hd : (b + 256 - 48) % 256 = b - 48 := by omega
    have hle : ¬ (b - 48 > 9) := by omega
    simp only [atoiDigits, hd, hle, if_false, List.foldl_cons]
    exact ih (fun x hx => h x (by simp [hx])) _

theorem foldl_digits_lt (l : List Nat) (h : ∀ b ∈ l, 48 ≤ b ∧ b ≤ 57) (n : Nat) :
    l.foldl (fun acc b => acc * 10 + (b - 48)) n < (n + 1) * 10 ^ l.length := by
  induction l generalizing n with
  | nil => simp
  | cons b bs ih =>
    have hb := h b (by simp)
    have := ih (fun x hx => h x (by simp [hx])) (n * 10 + (b - 48))
    simp only [List.foldl_cons, List.length_cons]
    calc _ < (n * 10 + (b - 48) + 1) * 10 ^ bs.length := this
      _ ≤ ((n + 1) * 10) * 10 ^ bs.length := by
          apply Nat.mul_le_mul_right
          omega
      _ = (n + 1) * 10 ^ (bs.length + 1) := by ring

theorem decimalValue_lt (l : List Nat) (h : isNineDigits l) : decimalValue l < 10 ^ 9 := by
  have := foldl_digits_lt l h.2 0
  rw [h.1] at this
  simpa [decimalValue] using this

theorem Atoi_nine_digits (l : List Nat) (h : isNineDigits l) :
    Atoi l = .ok (decimalValue l : Int) := by
  obtain ⟨hlen, hd⟩ := h
  match l, hlen, hd with
  | b :: bs, hlen, hd =>
    have hb := hd b (by simp)
    have h45 : b ≠ 45 := by omega
    have h43 : b ≠ 43 := by omega
    simp [Atoi, hlen, h45, h43, atoiDigits_digits (b :: bs) hd 0, decimalValue]

theorem nine_digits_ne_terminate (l : List Nat) (h : isNineDigits l) : l ≠ terminateToken := by
  intro e
  have := h.2 116 (by simp [e, terminateToken])
  omega

/-! ## DefaultTCPController on well-formed input -/

theorem loop_nine_digit_lines (c : Conn) (heof : c.atEnd = .EOF)
    (hdl : ∀ k, c.deadlineFails k = false) (hsig : ∀ k, c.raisedElsewhere k = false) :
    ∀ (lines : List (List Nat)) (fuel k : Nat), (∀ l ∈ lines, isNineDigits l) →
      (wire lines).length < fuel →
      DefaultTCPController.loop c fuel k (wire lines) false =
        ⟨lines.map (fun l => (decimalValue l : Int)), .nil, false, lines⟩ := by
  intro lines
  induction lines with
  | nil =>
    intro fuel k _ hf
    match fuel, hf with
    | f + 1, _ => simp [DefaultTCPController.loop, wire, hdl, ReadString, heof]
  | cons l ls ih =>
    intro fuel k hl hf
    match fuel, hf with
    | f + 1, hf =>
      have h9 := hl l (by simp)
      have hrest : (wire ls).length < f := by
        simp [wire] at hf
        omega
      have hread := ReadString_line l (wire ls) (newline_not_mem_of_digits l h9.2)
      have hne := nine_digits_ne_terminate l h9
      simp [DefaultTCPController.loop, wire, hdl, hsig, hread, TrimSuffix_line, h9.1, hne,
        Atoi_nine_digits l h9, ih f (k + 1) (fun x hx => hl x (by simp [hx])) hrest]

/-- C2: when every line is exactly nine decimal digits, the stream then ends,
no deadline call fails and the termination signal stays down, the controller
pushes the base-10 value of each line, one per line and in arrival order, each
value lies in `[0, 10^9)`, and it returns `nil` with the signal still down. -/
theorem controller_pushes_nine_digit_lines (c : Conn) (lines : List (List Nat))
    (hlines : ∀ l ∈ lines, isNineDigits l) (hinput : c.input = wire lines)
    (heof : c.atEnd = .EOF) (hdl : ∀ k, c.deadlineFails k = false)
    (hsig : ∀ k, c.raisedElsewhere k = false) :
    (DefaultTCPController c false).pushed = lines.map (fun l => (decimalValue l : Int)) ∧
    (DefaultTCPController c false).outcome = Outcome.nil ∧
    (DefaultTCPController c false).terminate = false ∧
    (DefaultTCPController c false).pushed.length = lines.length ∧
    ∀ n ∈ (DefaultTCPController c false).pushed, 0 ≤ n ∧ n < 10 ^ 9 := by
  have hrun := loop_nine_digit_lines c heof hdl hsig lines (c.input.length + 1) 0 hlines
    (by rw [hinput]; omega)
  rw [← hinput] at hrun
  simp only [DefaultTCPController, hrun, List.length_map, true_and]
  intro n hn
  obtain ⟨l, hl, rfl⟩ := List.mem_map.mp hn
  have := decimalValue_lt l (hlines l hl)
  constructor
  · exact Int.natCast_nonneg _
  · exact_mod_cast this

theorem controller_pushes_nine_digit_lines_witness :
    (DefaultTCPController (quietConn (ascii "098765432\n000000007\n") .EOF) false).pushed
        = [98765432, 7] ∧
    (DefaultTCPController (quietConn (ascii "098765432\n000000007\n") .EOF) false).outcome
        = Outcome.nil := by
  have h := controller_pushes_nine_digit_lines
    (quietConn (ascii "098765432\n000000007\n") .EOF) [ascii "098765432", ascii "000000007"]
    (by decide) (by decide) rfl (fun _ => rfl) (fun _ => rfl)
  exact ⟨h.1.trans (by decide), h.2.1⟩


/-! ## One iteration of the controller's loop -/

theorem ReadString_length (delim : Nat) (input line rest : List Nat)
    (h : ReadString delim input = (line, some rest)) : rest.length < input.length := by
  induction input generalizing line with
  | nil => simp [ReadString] at h
  | cons b bs ih =>
    by_cases hb : b = delim
    · simp [ReadString, hb] at h
      simp [← h.2]
    · simp only [ReadString, hb, if_false, Prod.mk.injEq] at h
      have := ih (ReadString delim bs).1 (by rw [← h.2])
      simp only [List.length_cons]
      omega

/-- The ways one iteration of the loop ends: the five kinds of return, or a
push followed by the next iteration on the bytes that remain. -/
theorem loop_cases (c : Conn) (f k : Nat) (input : List Nat) (t : Bool) :
    (∃ o, (o = Outcome.nil ∨ o = Outcome.SetReadDeadline ∨ o = Outcome.ReadString) ∧
      DefaultTCPController.loop c (f + 1) k input t = ⟨[], o, t, []⟩) ∨
    (∃ data, data.length ≠ 9 ∧
      DefaultTCPController.loop c (f + 1) k input t =
        ⟨[], .checkFor9Digits data, t, [data]⟩) ∨
    (DefaultTCPController.loop c (f + 1) k input t =
        ⟨[], TERMINATED, true, [terminateToken]⟩) ∨
    (∃ data e, data.length = 9 ∧ data ≠ terminateToken ∧ Atoi data = .error e ∧
      DefaultTCPController.loop c (f + 1) k input t =
        ⟨[], .strconvAtoi e, t, [data]⟩) ∨
    (∃ data n, data.length = 9 ∧ data ≠ terminateToken ∧ Atoi data = .ok n ∧
      (t || c.raisedElsewhere k) = true ∧
      DefaultTCPController.loop c (f + 1) k input t = ⟨[], TERMINATED, true, [data]⟩) ∨
    (∃ data n rest, data.length = 9 ∧ data ≠ terminateToken ∧ Atoi data = .ok n ∧
      t = false ∧ c.raisedElsewhere k = false ∧ rest.length < input.length ∧
      DefaultTCPController.loop c (f + 1) k input t =
        ⟨n :: (DefaultTCPController.loop c f (k + 1) rest false).pushed,
          (DefaultTCPController.loop c f (k + 1) rest false).outcome,
          (DefaultTCPController.loop c f (k + 1) rest false).terminate,
          data :: (DefaultTCPController.loop c f (k + 1) rest false).reads⟩) := by
  by_cases hd : c.deadlineFails k = true
  · exact Or.inl ⟨.SetReadDeadline, by simp, by simp [DefaultTCPController.loop, hd]⟩
  rcases hR : ReadString newline input with ⟨line, _ | rest⟩
  · by_cases he : c.atEnd = .EOF
    · exact Or.inl ⟨.nil, by simp, by simp [DefaultTCPController.loop, hd, hR, he]⟩
    · exact Or.inl ⟨.ReadString, by simp, by simp [DefaultTCPController.loop, hd, hR, he]⟩
  refine Or.inr ?_
  by_cases hlen : (TrimSuffix line).length = 9
  swap
  · exact Or.inl ⟨TrimSuffix line, hlen, by simp [DefaultTCPController.loop, hd, hR, hlen]⟩
  refine Or.inr ?_
  by_cases htok : TrimSuffix line = terminateToken
  · refine Or.inl ?_
    have h9 : terminateToken.length = 9 := rfl
    cases hs : (t || c.raisedElsewhere k) <;>
      simp [DefaultTCPController.loop, hd, hR, htok, h9, hs]
  refine Or.inr ?_
  cases hA : Atoi (TrimSuffix line) with
  | error e =>
    exact Or.inl ⟨TrimSuffix line, e, hlen, htok, hA,
      by simp [DefaultTCPController.loop, hd, hR, hlen, htok, hA]⟩
  | ok n =>
    refine Or.inr ?_
    cases hs : (t || c.raisedElsewhere k)
    · have ht : t = false := by cases t <;> simp_all
      have hr : c.raisedElsewhere k = false := by cases t <;> simp_all
      exact Or.inr ⟨TrimSuffix line, n, rest, hlen, htok, hA, ht, hr,
        ReadString_length _ _ _ _ hR,
        by simp [DefaultTCPController.loop, hd, hR, hlen, htok, hA, ht, hr]⟩
    · exact Or.inl ⟨TrimSuffix line, n, hlen, htok, hA, rfl,
        by simp [DefaultTCPController.loop, hd, hR, hlen, htok, hA, hs]⟩

/-! ## The poll before the push -/

theorem raised_shift (c : Conn) (k i : Nat) (hr : c.raisedElsewhere k = false)
    (h : false = true ∨ ∃ j, k ≤ j ∧ j ≤ k + i ∧ c.raisedElsewhere j = true) :
    ∃ i', i = i' + 1 ∧
      (false = true ∨ ∃ j, k + 1 ≤ j ∧ j ≤ k + 1 + i' ∧ c.raisedElsewhere j = true) := by
  rcases h with h | ⟨j, hj1, hj2, hj3⟩
  · simp at h
  · have hjk : j ≠ k := by
      intro e
      rw [e, hr] at hj3
      simp at hj3
    refine ⟨i - 1, by omega, Or.inr ⟨j, by omega, by omega, hj3⟩⟩

theorem loop_poll (c : Conn) : ∀ (fuel k : Nat) (input : List Nat) (t : Bool),
    (∀ i, (t = true ∨ ∃ j, k ≤ j ∧ j ≤ k + i ∧ c.raisedElsewhere j = true) →
      (DefaultTCPController.loop c fuel k input t).pushed.length ≤ i) ∧
    (∀ i data n, (DefaultTCPController.loop c fuel k input t).reads[i]? = some data →
      data.length = 9 → data ≠ terminateToken → Atoi data = .ok n →
      (t = true ∨ ∃ j, k ≤ j ∧ j ≤ k + i ∧ c.raisedElsewhere j = true) →
      (DefaultTCPController.loop c fuel k input t).outcome = TERMINATED ∧
      (DefaultTCPController.loop c fuel k input t).pushed.length = i ∧
      (DefaultTCPController.loop c fuel k input t).reads.length = i + 1) := by
  intro fuel
  induction fuel with
  | zero => intro k input t; simp [DefaultTCPController.loop]
  | succ f ih =>
    intro k input t
    rcases loop_cases c f k input t with ⟨o, _, h⟩ | ⟨data, hlen, h⟩ | h |
      ⟨data, e, hlen, htok, hA, h⟩ | ⟨data, n, hlen, htok, hA, hs, h⟩ |
      ⟨data, n, rest, hlen, htok, hA, ht, hr, _, h⟩
    · rw [h]; simp
    · rw [h]
      refine ⟨by simp, ?_⟩
      intro i d m hget hd9
      cases i with
      | zero => simp at hget; rw [← hget] at hd9; exact absurd hd9 hlen
      | succ i => simp at hget
    · rw [h]
      refine ⟨by simp, ?_⟩
      intro i d m hget _ hdt
      cases i with
      | zero => simp at hget; exact absurd hget.symm hdt
      | succ i => simp at hget
    · rw [h]
      refine ⟨by simp, ?_⟩
      intro i d m hget _ _ hdA
      cases i with
      | zero => simp at hget; rw [← hget, hA] at hdA; simp at hdA
      | succ i => simp at hget
    · rw [h]
      refine ⟨by simp, ?_⟩
      intro i d m hget _ _ _ _
      cases i with
      | zero => simp
      | succ i => simp at hget
    · rw [h]
      subst ht
      constructor
      · intro i hi
        obtain ⟨i', rfl, hi'⟩ := raised_shift c k i hr hi
        have := (ih (k + 1) rest false).1 i' hi'
        simp only [List.length_cons]
        omega
      · intro i d m hget hd9 hdt hdA hi
        obtain ⟨i', rfl, hi'⟩ := raised_shift c k i hr hi
        simp only [List.getElem?_cons_succ] at hget
        have := (ih (k + 1) rest false).2 i' d m hget hd9 hdt hdA hi'
        simp only [List.length_cons]
        exact ⟨this.1, by omega, by omega⟩

/-- C7: a valid number is pushed only while the termination signal is down.
If the signal is raised, at entry or by another goroutine, by the time
iteration `i` polls it, the controller pushes at most the `i` numbers of the
earlier iterations; if the line read in iteration `i` parsed as a number
then, the controller returns `TERMINATED` right there, that line being the
last one read and not pushed. A controller started with the signal raised
pushes nothing. -/
theorem controller_polls_before_push (c : Conn) (t0 : Bool) :
    (∀ i, (t0 = true ∨ ∃ j, j ≤ i ∧ c.raisedElsewhere j = true) →
      (DefaultTCPController c t0).pushed.length ≤ i) ∧
    (∀ i data n, (DefaultTCPController c t0).reads[i]? = some data →
      data.length = 9 → data ≠ terminateToken → Atoi data = .ok n →
      (t0 = true ∨ ∃ j, j ≤ i ∧ c.raisedElsewhere j = true) →
      (DefaultTCPController c t0).outcome = TERMINATED ∧
      (DefaultTCPController c t0).pushed.length = i ∧
      (DefaultTCPController c t0).reads.length = i + 1) ∧
    (t0 = true → (DefaultTCPController c t0).pushed = []) := by
  have key := loop_poll c (c.input.length + 1) 0 c.input t0
  have conv : ∀ i, (t0 = true ∨ ∃ j, j ≤ i ∧ c.raisedElsewhere j = true) →
      (t0 = true ∨ ∃ j, 0 ≤ j ∧ j ≤ 0 + i ∧ c.raisedElsewhere j = true) := by
    intro i h
    rcases h with h | ⟨j, hj, hr⟩
    · exact Or.inl h
    · exact Or.inr ⟨j, Nat.zero_le j, by omega, hr⟩
  refine ⟨fun i hi => key.1 i (conv i hi), ?_, ?_⟩
  · intro i data n hget h9 htok hA hi
    exact key.2 i data n hget h9 htok hA (conv i hi)
  · intro ht
    have := key.1 0 (Or.inl ht)
    exact List.length_eq_zero.mp (Nat.le_zero.mp this)

theorem controller_polls_before_push_witness :
    (DefaultTCPController
      ⟨ascii "000000001\n000000002\n000000003\n", .EOF, fun _ => false, fun k => decide (k = 1)⟩
      false).outcome = TERMINATED ∧
    (DefaultTCPController
      ⟨ascii "000000001\n000000002\n000000003\n", .EOF, fun _ => false, fun k => decide (k = 1)⟩
      false).pushed = [1] := by
  have h := (controller_polls_before_push
    ⟨ascii "000000001\n000000002\n000000003\n", .EOF, fun _ => false, fun k => decide (k = 1)⟩
    false).2.1 1 (ascii "000000002") 2 (by decide) (by decide) (by decide) rfl
    (Or.inr ⟨1, Nat.le_refl 1, by decide⟩)
  exact ⟨h.1, by decide⟩

/-! ## The termination signal -/

theorem getLast?_cons_ne_nil {α : Type} (a : α) (l : List α) (h : l ≠ []) :
    (a :: l).getLast? = l.getLast? := by
  cases l with
  | nil => exact absurd rfl h
  | cons x xs => simp [List.getLast?_cons_cons]

theorem loop_signal (c : Conn) (hq : ∀ k, c.raisedElsewhere k = false) :
    ∀ (fuel k : Nat) (input : List Nat) (t : Bool),
    ((DefaultTCPController.loop c fuel k input t).terminate = true ↔
      (t = true ∨ terminateToken ∈ (DefaultTCPController.loop c fuel k input t).reads)) ∧
    (terminateToken ∈ (DefaultTCPController.loop c fuel k input t).reads →
      (DefaultTCPController.loop c fuel k input t).outcome = TERMINATED ∧
      (DefaultTCPController.loop c fuel k input t).reads.getLast? = some terminateToken ∧
      (DefaultTCPController.loop c fuel k input t).reads.length =
        (DefaultTCPController.loop c fuel k input t).pushed.length + 1) ∧
    (∀ (i : Nat) (n : Int), (DefaultTCPController.loop c fuel k input t).pushed[i]? = some n →
      ∃ data, (DefaultTCPController.loop c fuel k input t).reads[i]? = some data ∧
        data ≠ terminateToken ∧ Atoi data = .ok n) := by
  intro fuel
  induction fuel with
  | zero => intro k input t; simp [DefaultTCPController.loop]
  | succ f ih =>
    intro k input t
    have h9 : terminateToken.length = 9 := rfl
    rcases loop_cases c f k input t with ⟨o, _, h⟩ | ⟨data, hlen, h⟩ | h |
      ⟨data, e, hlen, htok, hA, h⟩ | ⟨data, n, hlen, htok, hA, hs, h⟩ |
      ⟨data, n, rest, hlen, htok, hA, ht, hr, _, h⟩
    · rw [h]; simp
    · rw [h]
      have hne : terminateToken ≠ data := fun e => hlen (e ▸ h9)
      simp [hq, hne]
    · rw [h]; simp
    · rw [h]
      simp [hq, Ne.symm htok]
    · rw [h]
      have ht : t = true := by simpa [hq] using hs
      simp [ht, Ne.symm htok]
    · rw [h]
      subst ht
      obtain ⟨ha, hb, hd⟩ := ih (k + 1) rest false
      refine ⟨?_, ?_, ?_⟩
      · simp only [List.mem_cons, Ne.symm htok, false_or]
        exact ha
      · intro hmem
        simp only [List.mem_cons, Ne.symm htok, false_or] at hmem
        obtain ⟨h1, h2, h3⟩ := hb hmem
        refine ⟨h1, ?_, by simp [h3]⟩
        have hne : (DefaultTCPController.loop c f (k + 1) rest false).reads ≠ [] :=
          List.ne_nil_of_mem hmem
        show (data :: (DefaultTCPController.loop c f (k + 1) rest false).reads).getLast? = _
        rw [getLast?_cons_ne_nil _ _ hne]
        exact h2
      · intro i m hget
        cases i with
        | zero =>
          simp only [List.getElem?_cons_zero, Option.some.injEq] at hget
          exact ⟨data, by simp, htok, hget ▸ hA⟩
        | succ i =>
          simp only [List.getElem?_cons_succ] at hget ⊢
          exact hd i m hget

/-- C6: on a connection where no other goroutine touches the signal, the
termination signal is raised when the controller returns exactly if it was
raised at entry or the controller has read a line whose payload is
`terminate`. Having read that line the controller returns `TERMINATED`, the
line is the last one read, and it is not pushed: every integer pushed is the
parse of an earlier line that is not `terminate`. Whenever the controller
returns anything but `TERMINATED` the signal is as it was at entry, and a
signal raised at entry is raised at return. -/
theorem controller_signal (c : Conn) (t0 : Bool)
    (hq : ∀ k, c.raisedElsewhere k = false) :
    ((DefaultTCPController c t0).terminate = true ↔
      (t0 = true ∨ terminateToken ∈ (DefaultTCPController c t0).reads)) ∧
    (terminateToken ∈ (DefaultTCPController c t0).reads →
      (DefaultTCPController c t0).outcome = TERMINATED ∧
      (DefaultTCPController c t0).reads.getLast? = some terminateToken ∧
      (DefaultTCPController c t0).reads.length =
        (DefaultTCPController c t0).pushed.length + 1) ∧
    (∀ (i : Nat) (n : Int), (DefaultTCPController c t0).pushed[i]? = some n →
      ∃ data, (DefaultTCPController c t0).reads[i]? = some data ∧
        data ≠ terminateToken ∧ Atoi data = .ok n) ∧
    ((DefaultTCPController c t0).outcome ≠ TERMINATED →
      (DefaultTCPController c t0).terminate = t0) ∧
    (t0 = true → (DefaultTCPController c t0).terminate = true) := by
  obtain ⟨ha, hb, hd⟩ := loop_signal c hq (c.input.length + 1) 0 c.input t0
  refine ⟨ha, hb, hd, ?_, fun h => ha.mpr (Or.inl h)⟩
  intro hne
  have hnot : terminateToken ∉ (DefaultTCPController c t0).reads :=
    fun hmem => hne (hb hmem).1
  cases t0 with
  | true => exact ha.mpr (Or.inl rfl)
  | false =>
    cases hterm : (DefaultTCPController c false).terminate with
    | false => rfl
    | true =>
      rcases ha.mp hterm with h | h
      · simp at h
      · exact absurd h hnot

theorem controller_signal_witness :
    (DefaultTCPController (quietConn (ascii "000000001\nterminate\n000000002\n") .EOF)
      false).terminate = true ∧
    (DefaultTCPController (quietConn (ascii "000000001\nterminate\n000000002\n") .EOF)
      false).outcome = TERMINATED ∧
    (DefaultTCPController (quietConn (ascii "000000001\nterminate\n000000002\n") .EOF)
      false).pushed = [1] := by
  have h := controller_signal
    (quietConn (ascii "000000001\nterminate\n000000002\n") .EOF) false (fun _ => rfl)
  exact ⟨h.1.mpr (Or.inr (by decide)), (h.2.1 (by decide)).1, by decide⟩

/-- The fuel `input.length + 1` is enough: any larger amount gives the same
run, so the loop never stops for want of fuel. -/
theorem loop_fuel (c : Conn) : ∀ (f1 f2 k : Nat) (input : List Nat) (t : Bool),
    input.length < f1 → input.length < f2 →
    DefaultTCPController.loop c f1 k input t = DefaultTCPController.loop c f2 k input t := by
  intro f1
  induction f1 with
  | zero => intro f2 k input t h; omega
  | succ a ih =>
    intro f2 k input t h1 h2
    match f2, h2 with
    | b + 1, h2 =>
      by_cases hd : c.deadlineFails k = true
      · simp [DefaultTCPController.loop, hd]
      rcases hR : ReadString newline input with ⟨line, _ | rest⟩
      · simp [DefaultTCPController.loop, hd, hR]
      have hlt := ReadString_length _ _ _ _ hR
      have := ih b (k + 1) rest t (by omega) (by omega)
      simp [DefaultTCPController.loop, hd, hR, this]

/-! ## NumberStore: what is forwarded -/

theorem mem_firstArrivals (l : List Int) (y : Int) : y ∈ firstArrivals l ↔ y ∈ l := by
  induction l with
  | nil => simp [firstArrivals]
  | cons x xs ih =>
    simp only [firstArrivals, List.mem_cons, List.mem_filter, ih, decide_eq_true_eq]
    by_cases h : y = x <;> simp [h]

theorem nodup_firstArrivals (l : List Int) : (firstArrivals l).Nodup := by
  induction l with
  | nil => simp [firstArrivals]
  | cons x xs ih =>
    simp only [firstArrivals, List.nodup_cons, List.mem_filter, decide_eq_true_eq]
    exact ⟨fun h => h.2 rfl, ih.filter _⟩

theorem length_firstArrivals (l : List Int) : (firstArrivals l).length = l.toFinset.card := by
  rw [← List.toFinset_card_of_nodup (nodup_firstArrivals l)]
  congr 1
  ext y
  simp [mem_firstArrivals]

theorem store_fold (events : List Event) : ∀ s : Store,
    (events.foldl NumberStore.step s).out =
      s.out ++ (firstArrivals (arrivals events)).filter (fun n => decide (n ∉ s.numbers)) ∧
    (events.foldl NumberStore.step s).numbers = s.numbers ∪ (arrivals events).toFinset := by
  induction events with
  | nil => intro s; simp [arrivals, firstArrivals]
  | cons e es ih =>
    intro s
    cases e with
    | tick =>
      have := ih (NumberStore.step s .tick)
      simpa [NumberStore.step, arrivals] using this
    | number n =>
      have := ih (NumberStore.step s (.number n))
      by_cases hn : n ∈ s.numbers
      · simp only [List.foldl_cons, arrivals, firstArrivals]
        simp only [NumberStore.step, hn, if_true] at this ⊢
        refine ⟨?_, ?_⟩
        · rw [this.1, List.filter_cons]
          simp only [hn, not_true_eq_false, decide_False, Bool.false_eq_true, if_false,
            List.filter_filter]
          congr 1
          apply List.filter_congr
          intro y _
          by_cases hy : y ∈ s.numbers
          · simp [hy]
          · have : y ≠ n := fun e => hy (e ▸ hn)
            simp [hy, this]
        · rw [this.2]
          ext y
          simp only [Finset.mem_union, List.mem_toFinset, List.mem_cons]
          constructor
          · rintro (h | h)
            · exact Or.inl h
            · exact Or.inr (Or.inr h)
          · rintro (h | h | h)
            · exact Or.inl h
            · exact Or.inl (h ▸ hn)
            · exact Or.inr h
      · simp only [List.foldl_cons, arrivals, firstArrivals]
        simp only [NumberStore.step, hn, if_false] at this ⊢
        refine ⟨?_, ?_⟩
        · rw [this.1, List.filter_cons]
          simp only [hn, not_false_eq_true, decide_True, if_true, List.filter_filter,
            List.append_assoc, List.singleton_append]
          congr 2
          apply List.filter_congr
          intro y _
          simp only [Finset.mem_insert, not_or]
          by_cases h1 : y = n <;> by_cases h2 : y ∈ s.numbers <;> simp [h1, h2]
        · rw [this.2]
          ext y
          simp only [Finset.mem_union, Finset.mem_insert, List.mem_toFinset, List.mem_cons]
          tauto

/-- C1: whatever the ticks in between, `NumberStore` forwards the arriving
integers with every repeated occurrence removed, in order of first arrival:
no number is forwarded twice, a number is forwarded exactly if it arrives,
and the count forwarded is the count of distinct numbers that arrived. -/
theorem store_forwards_first_arrivals (events : List Event) :
    (NumberStore events).out = firstArrivals (arrivals events) ∧
    (NumberStore events).out.Nodup ∧
    (∀ n, n ∈ (NumberStore events).out ↔ n ∈ arrivals events) ∧
    (NumberStore events).out.length = (arrivals events).toFinset.card ∧
    (NumberStore events).numbers = (arrivals events).toFinset := by
  have h := store_fold events NumberStore.init
  have hout : (NumberStore events).out = firstArrivals (arrivals events) := by
    have := h.1
    simpa [NumberStore, NumberStore.init] using this
  refine ⟨hout, ?_, ?_, ?_, ?_⟩
  · rw [hout]; exact nodup_firstArrivals _
  · intro n; rw [hout]; exact mem_firstArrivals _ n
  · rw [hout]; exact length_firstArrivals _
  · have := h.2
    simpa [NumberStore, NumberStore.init] using this

/-! ## NumberStore: the counters -/

theorem wrap64_eq (x : Int) (h0 : 0 ≤ x) (h1 : x < 2 ^ 63) : wrap64 x = x := by
  unfold wrap64
  omega

theorem StoreInv_tick (s : Store) (k : Nat) (h : StoreInv s k) :
    StoreInv (NumberStore.step s .tick) k := by
  obtain ⟨h1, h2, h3, h4, h5, h6, h7⟩ := h
  simp only [StoreInv, NumberStore.step, List.map_append, List.sum_append, List.map_cons,
    List.map_nil, List.sum_cons, List.sum_nil]
  refine ⟨h1, by omega, by omega, h4, by omega, le_refl _, le_refl _⟩

theorem StoreInv_number (s : Store) (k : Nat) (n : Int) (h : StoreInv s k)
    (hk : k + 1 < 2 ^ 63) : StoreInv (NumberStore.step s (.number n)) (k + 1) := by
  obtain ⟨h1, h2, h3, h4, h5, h6, h7⟩ := h
  have hk' : ((k : Int) + 1) < 2 ^ 63 := by exact_mod_cast hk
  have ht : wrap64 (s.total + 1) = s.total + 1 := wrap64_eq _ (by omega) (by omega)
  by_cases hn : n ∈ s.numbers
  · have hd : wrap64 (s.currentDuplicated + 1) = s.currentDuplicated + 1 :=
      wrap64_eq _ (by omega) (by omega)
    simp only [StoreInv, NumberStore.step, hn, if_true, ht, hd]
    refine ⟨by push_cast; omega, by push_cast; omega, h3, h4, h5, h6, by omega⟩
  · have hu : wrap64 (s.currentUnique + 1) = s.currentUnique + 1 :=
      wrap64_eq _ (by omega) (by omega)
    simp only [StoreInv, NumberStore.step, hn, if_false, ht, hu,
      Finset.card_insert_of_not_mem hn, List.length_append, List.length_singleton]
    refine ⟨by push_cast; omega, by push_cast; omega, by push_cast; omega,
      by push_cast; omega, h5, by omega, h7⟩

theorem StoreInv_fold (events : List Event) : ∀ (s : Store) (k : Nat), StoreInv s k →
    k + (arrivals events).length < 2 ^ 63 →
    StoreInv (events.foldl NumberStore.step s) (k + (arrivals events).length) := by
  induction events with
  | nil => intro s k h _; simpa [arrivals] using h
  | cons e es ih =>
    intro s k h hk
    cases e with
    | tick =>
      simp only [arrivals, List.foldl_cons] at hk ⊢
      exact ih _ k (StoreInv_tick s k h) hk
    | number n =>
      simp only [arrivals, List.foldl_cons, List.length_cons] at hk ⊢
      have := ih _ (k + 1) (StoreInv_number s k n h (by omega)) (by omega)
      have e : k + ((arrivals es).length + 1) = k + 1 + (arrivals es).length := by omega
      rw [e]
      exact this

/-- C8: as long as fewer than `2^63` integers have arrived (the `int64`
counters cannot overflow before), after any sequence of arrivals and ticks
the window counters summed over every reported window and the current one
give the cumulative total, which is the number of integers received; the
unique counters summed over all windows give the size of the map `numbers`,
which is the number of integers forwarded. A tick sets both window counters
to zero, records them in its report, and leaves the total, the map and the
forwarded numbers as they were. -/
theorem store_counters (events : List Event) (hbound : (arrivals events).length < 2 ^ 63) :
    (((NumberStore events).reports.map (fun r => r.unique + r.duplicates)).sum +
      ((NumberStore events).currentUnique + (NumberStore events).currentDuplicated)
        = (NumberStore events).total) ∧
    (NumberStore events).total = (arrivals events).length ∧
    (((NumberStore events).reports.map (fun r => r.unique)).sum +
      (NumberStore events).currentUnique = (NumberStore events).numbers.card) ∧
    (NumberStore events).numbers.card = (NumberStore events).out.length ∧
    (∀ s : Store,
      (NumberStore.step s .tick).currentUnique = 0 ∧
      (NumberStore.step s .tick).currentDuplicated = 0 ∧
      (NumberStore.step s .tick).total = s.total ∧
      (NumberStore.step s .tick).numbers = s.numbers ∧
      (NumberStore.step s .tick).out = s.out ∧
      (NumberStore.step s .tick).reports =
        s.reports ++ [⟨s.currentUnique, s.currentDuplicated, s.numbers.card, s.total⟩]) := by
  have hinit : StoreInv NumberStore.init 0 := by
    simp [StoreInv, NumberStore.init]
  have h := StoreInv_fold events NumberStore.init 0 hinit (by omega)
  simp only [Nat.zero_add] at h
  change StoreInv (NumberStore events) _ at h
  obtain ⟨h1, h2, h3, h4, -, -, -⟩ := h
  refine ⟨?_, h1, h3, by exact_mod_cast h4, ?_⟩
  · rw [h1]; exact h2
  · intro s
    simp [NumberStore.step]

theorem store_counters_witness :
    (NumberStore [.number 5, .number 7, .tick, .number 5, .number 9, .tick, .number 9]).total
      = 5 ∧
    (NumberStore [.number 5, .number 7, .tick, .number 5, .number 9, .tick, .number 9]).reports
      = [⟨2, 0, 2, 2⟩, ⟨1, 1, 3, 4⟩] := by
  have h := store_counters
    [.number 5, .number 7, .tick, .number 5, .number 9, .tick, .number 9] (by decide)
  exact ⟨h.2.1.trans (by decide), by decide⟩

/-! ## FileWriter: the format of a line -/

theorem decimalValue_append_singleton (l : List Nat) (d : Nat) :
    decimalValue (l ++ [d]) = decimalValue l * 10 + (d - 48) := by
  simp [decimalValue, List.foldl_append]

theorem decimalValue_zeros_append (m : Nat) (l : List Nat) :
    decimalValue (List.replicate m 48 ++ l) = decimalValue l := by
  induction m with
  | zero => simp
  | succ m ih =>
    simp only [decimalValue, List.replicate_succ, List.cons_append, List.foldl_cons] at ih ⊢
    simpa using ih

theorem fmtDecimal_spec : ∀ (fuel u k : Nat), 1 ≤ k → k ≤ fuel + 1 → u < 10 ^ k →
    (fmtDecimal fuel u).length ≤ k ∧ (∀ b ∈ fmtDecimal fuel u, 48 ≤ b ∧ b ≤ 57) ∧
    decimalValue (fmtDecimal fuel u) = u := by
  intro fuel
  induction fuel with
  | zero =>
    intro u k h1 h2 hu
    have hk : k = 1 := by omega
    subst hk
    have hu' : u < 10 := by simpa using hu
    have hmod : u % 10 = u := Nat.mod_eq_of_lt hu'
    simp only [fmtDecimal, hmod, List.length_singleton, List.mem_singleton, forall_eq]
    refine ⟨le_refl _, by omega, by simp [decimalValue]⟩
  | succ f ih =>
    intro u k h1 h2 hu
    by_cases h10 : u ≥ 10
    · have hk2 : 2 ≤ k := by
        by_contra hlt
        have hk : k = 1 := by omega
        subst hk
        simp at hu
        omega
      have hdiv : u / 10 < 10 ^ (k - 1) := by
        apply Nat.div_lt_of_lt_mul
        have e : 10 * 10 ^ (k - 1) = 10 ^ k := by
          rw [← pow_succ']
          congr 1
          omega
        omega
      obtain ⟨hl, hd, hv⟩ := ih (u / 10) (k - 1) (by omega) (by omega) hdiv
      simp only [fmtDecimal, h10, if_true]
      refine ⟨?_, ?_, ?_⟩
      · simp only [List.length_append, List.length_singleton]
        omega
      · intro b hb
        rcases List.mem_append.mp hb with hb | hb
        · exact hd b hb
        · have : b = 48 + u % 10 := by simpa using hb
          omega
      · rw [decimalValue_append_singleton, hv]
        omega
    · have hlt : u < 10 := by omega
      simp only [fmtDecimal, h10, if_false, List.length_singleton, List.mem_singleton, forall_eq]
      refine ⟨h1, by omega, by simp [decimalValue]⟩

theorem fmt09d_spec (n : Int) (h0 : 0 ≤ n) (h1 : n < 10 ^ 9) :
    isNineDigits (fmt09d n) ∧ (decimalValue (fmt09d n) : Int) = n := by
  have hneg : ¬ n < 0 := by omega
  have hu : n.natAbs < 10 ^ 9 := by omega
  obtain ⟨hl, hd, hv⟩ := fmtDecimal_spec 20 n.natAbs 9 (by omega) (by omega) hu
  simp only [fmt09d, hneg, if_false]
  refine ⟨⟨?_, ?_⟩, ?_⟩
  · simp only [List.length_append, List.length_replicate]
    omega
  · intro b hb
    rcases List.mem_append.mp hb with hb | hb
    · have : b = 48 := (List.mem_replicate.mp hb).2
      omega
    · exact hd b hb
  · rw [decimalValue_zeros_append, hv]
    omega

/-- C4: for `0 <= n < 10^9` the text `FileWriter` appends for `n` is ten
bytes: nine ASCII decimal digits whose base-10 value is `n`, so padded with
zeros on the left, and one newline. The text goes to the buffer, and to the
file at the final flush. Distinct numbers of the range give distinct lines. -/
theorem writer_formats_nine_digits (n : Int) (h0 : 0 ≤ n) (h1 : n < 10 ^ 9) :
    (∀ w : Writer, (FileWriter.step w (.number n)).buffer = w.buffer ++ Fprintf n ∧
      (FileWriter.step w (.number n)).file = w.file) ∧
    (FileWriter [.number n]).file = Fprintf n ∧
    (Fprintf n).length = 10 ∧
    isNineDigits ((Fprintf n).take 9) ∧
    (decimalValue ((Fprintf n).take 9) : Int) = n ∧
    (Fprintf n).drop 9 = [newline] ∧
    (∀ m : Int, 0 ≤ m → m < 10 ^ 9 → m ≠ n → Fprintf m ≠ Fprintf n) := by
  obtain ⟨h9, hv⟩ := fmt09d_spec n h0 h1
  have htake : (Fprintf n).take 9 = fmt09d n := by
    simp [Fprintf, List.take_append_eq_append_take, h9.1]
  refine ⟨fun w => ⟨rfl, rfl⟩, by simp [FileWriter, FileWriter.step], ?_, ?_, ?_, ?_, ?_⟩
  · simp [Fprintf, h9.1]
  · rw [htake]; exact h9
  · rw [htake]; exact hv
  · simp [Fprintf, List.drop_append_eq_append_drop, h9.1]
  · intro m hm0 hm1 hne heq
    obtain ⟨hm9, hmv⟩ := fmt09d_spec m hm0 hm1
    have : fmt09d m = fmt09d n := by
      have := congrArg (fun l => l.take 9) heq
      simpa [Fprintf, List.take_append_eq_append_take, h9.1, hm9.1] using this
    rw [this] at hmv
    exact hne (hmv.symm.trans hv)

theorem writer_formats_nine_digits_witness :
    Fprintf 98765432 = ascii "098765432\n" ∧ (Fprintf 98765432).length = 10 := by
  have h := writer_formats_nine_digits 98765432 (by decide) (by decide)
  exact ⟨by decide, h.2.2.1⟩

/-! ## What the controller accepts as a number -/

theorem atoiDigits_ok (l : List Nat) (hbytes : ∀ b ∈ l, b < 256) :
    ∀ (n m : Nat), atoiDigits l n = .ok m → ∀ b ∈ l, 48 ≤ b ∧ b ≤ 57 := by
  induction l with
  | nil => intro n m _ b hb; simp at hb
  | cons x xs ih =>
    intro n m h b hb
    have hx := hbytes x (by simp)
    by_cases hd : (x + 256 - 48) % 256 > 9
    · simp only [atoiDigits, hd, if_true] at h
      cases h
    · simp only [atoiDigits, hd, if_false] at h
      rcases List.mem_cons.mp hb with rfl | hb
      · omega
      · exact ih (fun y hy => hbytes y (by simp [hy])) _ m h b hb

/-- The nine-byte payloads that `Atoi` parses: nine digits, or a sign `-` or
`+` followed by eight digits. -/
theorem Atoi_ok_nine (data : List Nat) (n : Int) (hbytes : ∀ b ∈ data, b < 256)
    (hlen : data.length = 9) (h : Atoi data = .ok n) :
    isNineDigits data ∨
    ∃ sign body, data = sign :: body ∧ (sign = 45 ∨ sign = 43) ∧ body.length = 8 ∧
      ∀ b ∈ body, 48 ≤ b ∧ b ≤ 57 := by
  match data, hlen with
  | x :: xs, hlen =>
    have hxs : xs.length = 8 := by simpa using hlen
    by_cases hsign : x = 45 ∨ x = 43
    · right
      refine ⟨x, xs, rfl, hsign, hxs, ?_⟩
      cases hA : atoiDigits xs 0 with
      | error e => simp [Atoi, hlen, hsign, hxs, hA] at h
      | ok m => exact atoiDigits_ok xs (fun y hy => hbytes y (by simp [hy])) 0 m hA
    · left
      have h45 : x ≠ 45 := fun e => hsign (Or.inl e)
      have h43 : x ≠ 43 := fun e => hsign (Or.inr e)
      refine ⟨hlen, ?_⟩
      cases hA : atoiDigits (x :: xs) 0 with
      | error e => simp [Atoi, hlen, h45, h43, hA] at h
      | ok m => exact atoiDigits_ok (x :: xs) hbytes 0 m hA

/-- Every integer pushed is the parse by `Atoi` of a nine-byte line read. -/
theorem loop_pushed (c : Conn) : ∀ (fuel k : Nat) (input : List Nat) (t : Bool)
    (i : Nat) (n : Int), (DefaultTCPController.loop c fuel k input t).pushed[i]? = some n →
    ∃ data, (DefaultTCPController.loop c fuel k input t).reads[i]? = some data ∧
      data.length = 9 ∧ data ≠ terminateToken ∧ Atoi data = .ok n := by
  intro fuel
  induction fuel with
  | zero => intro k input t i n h; simp [DefaultTCPController.loop] at h
  | succ f ih =>
    intro k input t i n hget
    rcases loop_cases c f k input t with ⟨o, _, h⟩ | ⟨data, hlen, h⟩ | h |
      ⟨data, e, hlen, htok, hA, h⟩ | ⟨data, m, hlen, htok, hA, hs, h⟩ |
      ⟨data, m, rest, hlen, htok, hA, ht, hr, _, h⟩
    · rw [h] at hget; simp at hget
    · rw [h] at hget; simp at hget
    · rw [h] at hget; simp at hget
    · rw [h] at hget; simp at hget
    · rw [h] at hget; simp at hget
    · subst ht
      rw [h] at hget ⊢
      cases i with
      | zero =>
        simp only [List.getElem?_cons_zero, Option.some.injEq] at hget
        exact ⟨data, by simp, hlen, htok, hget ▸ hA⟩
      | succ i =>
        simp only [List.getElem?_cons_succ] at hget ⊢
        exact ih (k + 1) rest false i n hget

/-- A line whose payload is not nine bytes long ends the run with the length
error and is not pushed, whatever the state of the signal. -/
theorem controller_rejects_wrong_length (c : Conn) (t0 : Bool) (payload rest : List Nat)
    (hnl : newline ∉ payload) (hinput : c.input = payload ++ newline :: rest)
    (hdl : c.deadlineFails 0 = false) (hlen : payload.length ≠ 9) :
    DefaultTCPController c t0 =
      ⟨[], .checkFor9Digits payload, t0, [payload]⟩ := by
  simp [DefaultTCPController, DefaultTCPController.loop, hdl, hinput,
    ReadString_line payload rest hnl, TrimSuffix_line, hlen]

/-- C3, at the failing input: the payload `-12345678` is not nine decimal
digits, and the controller pushes `-12345678` for it and goes on to return
`nil` at the end of the stream; likewise `+12345678` is pushed as
`12345678`. -/
theorem controller_pushes_signed_payload :
    ¬ isNineDigits (ascii "-12345678") ∧
    DefaultTCPController (quietConn (ascii "-12345678\n") .EOF) false =
      ⟨[-12345678], .nil, false, [ascii "-12345678"]⟩ ∧
    ¬ isNineDigits (ascii "+12345678") ∧
    DefaultTCPController (quietConn (ascii "+12345678\n") .EOF) false =
      ⟨[12345678], .nil, false, [ascii "+12345678"]⟩ := by
  decide

/-! ## The pipeline of one connection -/

/-- C5, at the failing input: the client line `-00000001` reaches the log as
the line `-00000001`, which does not match `^[0-9]{9}$`. -/
theorem pipeline_writes_signed_line :
    (pipeline (quietConn (ascii "-00000001\n") .EOF) false).run.pushed = [-1] ∧
    (pipeline (quietConn (ascii "-00000001\n") .EOF) false).writer.file
      = ascii "-00000001\n" ∧
    logLines (pipeline (quietConn (ascii "-00000001\n") .EOF) false).writer.file
      = [ascii "-00000001"] ∧
    ¬ isNineDigits (ascii "-00000001") := by
  decide

/-- C9, as stated, fails: on the bytes of scenario 1 the run does not end with
the `TERMINATED` outcome and the signal raised. -/
theorem scenario1_not_terminated :
    ¬ ((pipeline (quietConn scenario1 .EOF) false).run.pushed = [1, 2, 1] ∧
      (pipeline (quietConn scenario1 .EOF) false).run.outcome = TERMINATED ∧
      (pipeline (quietConn scenario1 .EOF) false).run.terminate = true ∧
      (pipeline (quietConn scenario1 .EOF) false).writer.file
        = ascii "000000001\n000000002\n" ∧
      (pipeline (quietConn scenario1 .EOF) false).store.currentUnique = 2 ∧
      (pipeline (quietConn scenario1 .EOF) false).store.currentDuplicated = 1) := by
  decide

/-- C9, amended: on the bytes of scenario 1 the controller pushes 1, 2, 1 and
then returns the length error for the ten-byte payload made of a blank and
`terminate`, leaving the termination signal down; the log content is
`000000001\n000000002\n` and the window counters are 2 unique, 1 duplicate. -/
theorem scenario1_protocol_violation :
    (pipeline (quietConn scenario1 .EOF) false).run.pushed = [1, 2, 1] ∧
    (pipeline (quietConn scenario1 .EOF) false).run.outcome
      = Outcome.checkFor9Digits (ascii " terminate") ∧
    (pipeline (quietConn scenario1 .EOF) false).run.terminate = false ∧
    (pipeline (quietConn scenario1 .EOF) false).writer.file
      = ascii "000000001\n000000002\n" ∧
    (pipeline (quietConn scenario1 .EOF) false).store.currentUnique = 2 ∧
    (pipeline (quietConn scenario1 .EOF) false).store.currentDuplicated = 1 := by
  decide

/-- With the blank removed the same client does end the run with `TERMINATED`
and the signal raised. -/
theorem scenario1_without_blank :
    (pipeline (quietConn (ascii "000000001\n000000002\n000000001\nterminate\n") .EOF)
      false).run = ⟨[1, 2, 1], TERMINATED, true,
        [ascii "000000001", ascii "000000002", ascii "000000001", terminateToken]⟩ := by
  decide

/-! ## Two controllers reading `terminate` at once -/

/-- C10, at the failing schedule: when both controllers run the `select`
before either runs `close(terminate)`, both take the `default` case, the
channel is closed by the first and `close` is called on it again by the
second, which panics. -/
theorem terminate_race_double_close :
    (Race.start 2).run [0, 1, 0, 1] = ⟨true, 2, [.returned, .panicked]⟩ := by
  decide

/-- When one controller finishes before the other starts, the channel is
closed once and both return. -/
theorem terminate_race_sequential :
    (Race.start 2).run [0, 0, 1] = ⟨true, 1, [.returned, .returned]⟩ := by
  decide
